import Mathlib

/-!
Verification of the lite-shooter load-generation engine.

Shallow embedding of the pure core of the repository:
* `percentile`, `computeMetrics` (metrics helpers) — latency statistics;
* `runTimedJobs` per-second bucketing (modelled as a fold over completed
  operation outcomes, each tagged with the whole second of elapsed time at
  which it completed);
* `runJobs` worker clamping and outcome recording (modelled as a fold over
  item indices);
* `sampleIndices` / series downsampling from report.go;
* `classifyError` from report.go;
* `lockedRand.Intn` and `blockPicker.pick` (windowed mode, modelled with a
  random oracle).

Go `float64` arithmetic is modelled by `ℚ`, `int64`/`int`/`int32` by `ℤ`
(claims that depend on machine-width arithmetic carry explicit range
hypotheses), and `math/rand` draws by an oracle value reduced modulo the
requested span.
-/

namespace LiteShooter

/-- The index computation inside `percentile`: `ceil(p/100*n)-1`, then the two
clamping branches of the source (`if idx < 0 { idx = 0 }`,
`if idx >= len(vals) { idx = len(vals)-1 }`). -/
def pIdx (p : ℚ) (n : ℕ) : ℤ :=
  let idx : ℤ := ⌈p / 100 * (n : ℚ)⌉ - 1
  let idx : ℤ := if idx < 0 then 0 else idx
  if idx ≥ (n : ℤ) then (n : ℤ) - 1 else idx

/-- From metrics helpers: `percentile(vals []int64, p float64) float64`.
`vals` is expected sorted; index `ceil(p/100*len)-1`, clamped below at 0
and above at `len-1`. -/
def percentile (vals : List ℤ) (p : ℚ) : ℚ :=
  if vals.length = 0 then 0
  else ((vals.getD (pIdx p vals.length).toNat 0 : ℤ) : ℚ)

/-- Sorting ascending, the model of Go's `sort.Slice(vals, vals[i] < vals[j])`
on integer slices (any sorting algorithm yields the same sorted permutation
on integers). -/
def sortInts (l : List ℤ) : List ℤ := List.insertionSort (· ≤ ·) l

/-- From metrics helpers: `computeMetrics(durations []int64, successCount int)`.
Returns `(avg, p50, p90, p95, p99, max)`. -/
def computeMetrics (durations : List ℤ) (successCount : ℕ) :
    ℚ × ℚ × ℚ × ℚ × ℚ × ℚ :=
  if successCount = 0 then (0, 0, 0, 0, 0, 0)
  else
    let vals := durations.filter (fun d => ¬ d < 0)
    if vals.length = 0 then (0, 0, 0, 0, 0, 0)
    else
      let vals := sortInts vals
      let sum : ℤ := vals.sum
      let avg : ℚ := (sum : ℚ) / (vals.length : ℚ)
      let mx : ℚ := ((vals.getD (vals.length - 1) 0 : ℤ) : ℚ)
      (avg, percentile vals 50, percentile vals 90,
        percentile vals 95, percentile vals 99, mx)

end LiteShooter

namespace LiteShooter

/-- The spec's nearest-rank index: `ceil(p/100*n)-1` clamped into `[0, n-1]`,
written as a single clamp. -/
def nearestRankIdx (p : ℚ) (n : ℕ) : ℤ :=
  min (max (⌈p / 100 * (n : ℚ)⌉ - 1) 0) ((n : ℤ) - 1)

theorem pIdx_eq_clamp (p : ℚ) (n : ℕ) (h : 1 ≤ n) :
    pIdx p n = min (max (⌈p / 100 * (n : ℚ)⌉ - 1) 0) ((n : ℤ) - 1) := by
  have hn : 1 ≤ (n : ℤ) := by exact_mod_cast h
  simp only [pIdx]
  split_ifs <;> omega

theorem percentile_eq_nearestRank (vals : List ℤ) (p : ℚ) (h : vals ≠ []) :
    percentile vals p = ((vals.getD (nearestRankIdx p vals.length).toNat 0 : ℤ) : ℚ) := by
  have hlen : vals.length ≠ 0 := by simpa using h
  have hlen1 : 1 ≤ vals.length := Nat.one_le_iff_ne_zero.mpr hlen
  unfold percentile nearestRankIdx
  rw [if_neg hlen, pIdx_eq_clamp p vals.length hlen1]

theorem pIdx_nonneg (p : ℚ) (n : ℕ) (h : 1 ≤ n) : 0 ≤ pIdx p n := by
  rw [pIdx_eq_clamp p n h]
  have : (1 : ℤ) ≤ (n : ℤ) := by exact_mod_cast h
  omega

theorem pIdx_le_pred (p : ℚ) (n : ℕ) (h : 1 ≤ n) : pIdx p n ≤ (n : ℤ) - 1 := by
  rw [pIdx_eq_clamp p n h]
  omega

theorem pIdx_toNat_lt (p : ℚ) (n : ℕ) (h : 1 ≤ n) : (pIdx p n).toNat < n := by
  have h1 := pIdx_le_pred p n h
  have : (1 : ℤ) ≤ (n : ℤ) := by exact_mod_cast h
  omega

theorem pIdx_mono (n : ℕ) (h : 1 ≤ n) {p q : ℚ} (hpq : p ≤ q) :
    pIdx p n ≤ pIdx q n := by
  rw [pIdx_eq_clamp p n h, pIdx_eq_clamp q n h]
  have hceil : ⌈p / 100 * (n : ℚ)⌉ ≤ ⌈q / 100 * (n : ℚ)⌉ := by
    apply Int.ceil_le_ceil
    have h100 : p / 100 ≤ q / 100 := by
      apply div_le_div_of_nonneg_right hpq
      norm_num
    exact mul_le_mul_of_nonneg_right h100 (by positivity)
  omega

theorem sorted_getD_mono {l : List ℤ} (h : l.Sorted (· ≤ ·)) {i j : ℕ}
    (hij : i ≤ j) (hj : j < l.length) : l.getD i 0 ≤ l.getD j 0 := by
  have hi : i < l.length := lt_of_le_of_lt hij hj
  rw [List.getD_eq_getElem l 0 hi, List.getD_eq_getElem l 0 hj]
  have := h.rel_get_of_le (a := ⟨i, hi⟩) (b := ⟨j, hj⟩) hij
  simpa using this

theorem percentile_mono {l : List ℤ} (hs : l.Sorted (· ≤ ·)) {p q : ℚ}
    (hpq : p ≤ q) : percentile l p ≤ percentile l q := by
  unfold percentile
  by_cases h0 : l.length = 0
  · simp [h0]
  · have h1 : 1 ≤ l.length := Nat.one_le_iff_ne_zero.mpr h0
    rw [if_neg h0, if_neg h0]
    have hmono := pIdx_mono l.length h1 hpq
    have hp0 := pIdx_nonneg p l.length h1
    have hq0 := pIdx_nonneg q l.length h1
    have hle : (pIdx p l.length).toNat ≤ (pIdx q l.length).toNat := by omega
    exact_mod_cast sorted_getD_mono hs hle (pIdx_toNat_lt q l.length h1)

theorem percentile_le_last {l : List ℤ} (hs : l.Sorted (· ≤ ·)) (p : ℚ) :
    percentile l p ≤ ((l.getD (l.length - 1) 0 : ℤ) : ℚ) := by
  unfold percentile
  by_cases h0 : l.length = 0
  · simp [h0]
    cases l with
    | nil => simp
    | cons a t => simp at h0
  · have h1 : 1 ≤ l.length := Nat.one_le_iff_ne_zero.mpr h0
    rw [if_neg h0]
    have hlt := pIdx_toNat_lt p l.length h1
    have hle : (pIdx p l.length).toNat ≤ l.length - 1 := by omega
    exact_mod_cast sorted_getD_mono hs hle (by omega)

/-- C2: for every non-empty ascending-sorted latency sample list and
percentile `p`, the computed percentile equals the value at index
`ceil(p/100 * n) - 1` clamped into `[0, n-1]` (nearest-rank method). -/
theorem percentile_is_nearest_rank (vals : List ℤ) (p : ℚ)
    (hne : vals ≠ []) (hs : vals.Sorted (· ≤ ·)) :
    percentile vals p = ((vals.getD (nearestRankIdx p vals.length).toNat 0 : ℤ) : ℚ) :=
  percentile_eq_nearestRank vals p hne

/-- Witness for C2 at the concrete sorted list `[3, 5, 9]` and `p = 50`. -/
theorem percentile_is_nearest_rank_witness :
    percentile [3, 5, 9] 50 = (([3, 5, 9].getD (nearestRankIdx 50 3).toNat 0 : ℤ) : ℚ) :=
  percentile_is_nearest_rank [3, 5, 9] 50 (by decide) (by decide)

/-- `computeMetrics` either returns all zeros, or computes the statistics over
a sorted non-empty sample list (the sorted filtered durations). -/
theorem computeMetrics_eq_cases (durations : List ℤ) (sc : ℕ) :
    computeMetrics durations sc = (0, 0, 0, 0, 0, 0) ∨
    ∃ vals : List ℤ, vals.Sorted (· ≤ ·) ∧ vals ≠ [] ∧
      computeMetrics durations sc =
        ((vals.sum : ℚ) / (vals.length : ℚ), percentile vals 50, percentile vals 90,
          percentile vals 95, percentile vals 99,
          ((vals.getD (vals.length - 1) 0 : ℤ) : ℚ)) := by
  by_cases h1 : sc = 0
  · left
    unfold computeMetrics
    rw [if_pos h1]
  · by_cases h2 : (durations.filter (fun d => ¬ d < 0)).length = 0
    · left
      unfold computeMetrics
      rw [if_neg h1]
      dsimp only
      rw [if_pos h2]
    · right
      refine ⟨sortInts (durations.filter (fun d => ¬ d < 0)),
        List.sorted_insertionSort _ _, ?_, ?_⟩
      · have hlen : (sortInts (durations.filter (fun d => ¬ d < 0))).length =
            (durations.filter (fun d => ¬ d < 0)).length :=
          List.length_insertionSort _ _
        intro hnil
        rw [hnil] at hlen
        exact h2 hlen.symm
      · unfold computeMetrics
        rw [if_neg h1]
        dsimp only
        rw [if_neg h2]

/-- C3 counterexample: the claim's p99 value for the fixture `[1..10]` is wrong:
the computed p99 is not 9 ms (it is 10 ms, the value at index
`ceil(0.99*10)-1 = 9`, since `ceil(9.9) = 10`). -/
theorem fixture_p99_not_nine :
    (computeMetrics [1, 2, 3, 4, 5, 6, 7, 8, 9, 10] 10).2.2.2.2.1 ≠ 9 := by
  have hceil : (⌈(99 : ℚ) / 100 * (10 : ℚ)⌉ : ℤ) = 10 := by
    rw [Int.ceil_eq_iff]
    norm_num
  have hsort : sortInts [1, 2, 3, 4, 5, 6, 7, 8, 9, 10] =
      [1, 2, 3, 4, 5, 6, 7, 8, 9, 10] := by decide
  simp [computeMetrics, hsort, percentile, pIdx, hceil]

/-- C3 amended: for the fixture of 10 sorted samples `[1..10]` ms, p50 is the
value at index `ceil(0.5*10)-1 = 4`, i.e. 5 ms, and p99 is the value at index
`ceil(0.99*10)-1 = 9`, i.e. 10 ms. -/
theorem fixture_p50_p99 :
    (computeMetrics [1, 2, 3, 4, 5, 6, 7, 8, 9, 10] 10).2.1 = 5 ∧
    (computeMetrics [1, 2, 3, 4, 5, 6, 7, 8, 9, 10] 10).2.2.2.2.1 = 10 ∧
    pIdx 50 10 = 4 ∧ pIdx 99 10 = 9 := by
  have hceil50 : (⌈(50 : ℚ) / 100 * (10 : ℚ)⌉ : ℤ) = 5 := by
    rw [Int.ceil_eq_iff]
    norm_num
  have hceil99 : (⌈(99 : ℚ) / 100 * (10 : ℚ)⌉ : ℤ) = 10 := by
    rw [Int.ceil_eq_iff]
    norm_num
  have hsort : sortInts [1, 2, 3, 4, 5, 6, 7, 8, 9, 10] =
      [1, 2, 3, 4, 5, 6, 7, 8, 9, 10] := by decide
  refine ⟨?_, ?_, ?_, ?_⟩
  · simp [computeMetrics, hsort, percentile, pIdx, hceil50]
  · simp [computeMetrics, hsort, percentile, pIdx, hceil99]
  · simp [pIdx, hceil50]
  · simp [pIdx, hceil99]

/-- C4: for every latency sample set the computed statistics satisfy
`p50 ≤ p90 ≤ p95 ≤ p99 ≤ max`. -/
theorem computeMetrics_percentiles_monotone (durations : List ℤ) (successCount : ℕ) :
    (computeMetrics durations successCount).2.1 ≤
      (computeMetrics durations successCount).2.2.1 ∧
    (computeMetrics durations successCount).2.2.1 ≤
      (computeMetrics durations successCount).2.2.2.1 ∧
    (computeMetrics durations successCount).2.2.2.1 ≤
      (computeMetrics durations successCount).2.2.2.2.1 ∧
    (computeMetrics durations successCount).2.2.2.2.1 ≤
      (computeMetrics durations successCount).2.2.2.2.2 := by
  rcases computeMetrics_eq_cases durations successCount with h | ⟨vals, hs, hne, h⟩
  · rw [h]
    norm_num
  · rw [h]
    refine ⟨?_, ?_, ?_, ?_⟩
    · exact percentile_mono hs (by norm_num)
    · exact percentile_mono hs (by norm_num)
    · exact percentile_mono hs (by norm_num)
    · exact percentile_le_last hs 99

/-- C5: `computeMetrics` excludes negative (failed) samples before computing
statistics, returns all-zero statistics whenever `successCount = 0`, and a
fully-failed sample set also yields all-zero statistics. -/
theorem computeMetrics_zero_and_filter :
    (∀ durations : List ℤ, computeMetrics durations 0 = (0, 0, 0, 0, 0, 0)) ∧
    (∀ (durations : List ℤ) (sc : ℕ),
      computeMetrics durations sc =
        computeMetrics (durations.filter (fun d => ¬ d < 0)) sc) ∧
    (∀ (durations : List ℤ) (sc : ℕ), (∀ d ∈ durations, d < 0) →
      computeMetrics durations sc = (0, 0, 0, 0, 0, 0)) := by
  refine ⟨?_, ?_, ?_⟩
  · intro durations
    simp [computeMetrics]
  · intro durations sc
    unfold computeMetrics
    have hff : (durations.filter (fun d => ¬ d < 0)).filter (fun d => ¬ d < 0) =
        durations.filter (fun d => ¬ d < 0) := by
      simp [List.filter_filter]
    rw [hff]
  · intro durations sc hall
    unfold computeMetrics
    have hnil : durations.filter (fun d => ¬ d < 0) = [] := by
      rw [List.filter_eq_nil_iff]
      intro a ha
      simpa using hall a ha
    rw [hnil]
    simp

/-- Witness for C5: a fully-failed duration list with nonzero success count
still yields all-zero statistics. -/
theorem computeMetrics_zero_and_filter_witness :
    computeMetrics [-1, -5] 3 = (0, 0, 0, 0, 0, 0) :=
  computeMetrics_zero_and_filter.2.2 [-1, -5] 3 (by decide)

/-! ### classifyError (report.go) -/

/-- Go `strings.TrimSpace`, on the ASCII whitespace occurring in error text. -/
def trimChars (s : List Char) : List Char :=
  ((s.dropWhile Char.isWhitespace).reverse.dropWhile Char.isWhitespace).reverse

/-- Go `strings.Contains(hay, needle)` on character lists. -/
def containsSub (hay needle : List Char) : Bool :=
  match hay with
  | [] => needle.isEmpty
  | _ :: t => needle.isPrefixOf hay || containsSub t needle

/-- From report.go `classifyError(s string) string`: lower-case and trim the
message (ASCII case folding, which agrees with Go's on these ASCII patterns),
then substring-match in the source's switch order. -/
def classifyError (s : List Char) : String :=
  let v := (trimChars s).map Char.toLower
  if v = [] then "unknown"
  else if containsSub v "context deadline exceeded".data || containsSub v "timeout".data then
    "timeout"
  else if containsSub v "unknown query".data then "unknown_query"
  else if containsSub v "connection reset".data then "conn_reset"
  else if containsSub v "broken pipe".data then "broken_pipe"
  else if containsSub v "eof".data then "eof"
  else if containsSub v "canceled".data then "canceled"
  else if containsSub v "not found".data then "not_found"
  else "other"

/-! ### lockedRand.Intn and blockPicker.pick (part_000) -/

/-- From part_000 `lockedRand.Intn`: non-positive `n` yields 0 (the guard added
over `math/rand.Intn`, which would panic); otherwise a PRNG draw in `[0, n)`,
modelled by the oracle value `r` reduced modulo `n`. -/
def lockedRandIntn (n : ℤ) (r : ℕ) : ℤ :=
  if n ≤ 0 then 0 else (r : ℤ) % n

/-- From part_000 `blockPicker.pick`, non-range ("window") mode, evaluated after
the cached bound refresh left `p.latest = latest`: `start = latest-window+1`
clamped below at 1, `span = latest-start+1`; return `latest` when `span ≤ 1`,
else `start + Intn(span)`.  `r` is the PRNG oracle. -/
def pickWindowed (latest window : ℤ) (r : ℕ) : ℤ :=
  let start := latest - window + 1
  let start := if start < 1 then 1 else start
  let span := latest - start + 1
  if span ≤ 1 then latest
  else start + lockedRandIntn span r

/-! ### runJobs (part_000) -/

/-- The worker-count clamp at the top of part_000 `runJobs`:
`if conc > total { conc = total }; if conc <= 0 { conc = 1 }`. -/
def effectiveConc (conc total : ℤ) : ℤ :=
  let c := if conc > total then total else conc
  if c ≤ 0 then 1 else c

/-- State accumulated by `runJobs`: the pre-sized durations array and the two
atomic outcome counters. -/
structure JobTally where
  durations : List ℤ
  successes : ℕ
  errors : ℕ

/-- Processing of one claimed index in a `runJobs` worker: on error write the
`-1` sentinel into the index's slot and bump `errors`, else write the measured
duration and bump `successes`. `ok i` abstracts `fn(i) == nil`, `dur i` the
measured milliseconds. -/
def recordJob (ok : ℕ → Bool) (dur : ℕ → ℤ) (st : JobTally) (i : ℕ) : JobTally :=
  if ok i then
    { st with durations := st.durations.set i (dur i), successes := st.successes + 1 }
  else
    { st with durations := st.durations.set i (-1), errors := st.errors + 1 }

/-- From part_000 `runJobs`: every index `0..total-1` is fed through the jobs
channel exactly once and processed by some worker; the aggregate effect is a
fold of `recordJob` over the indices (worker interleaving is irrelevant since
each index touches its own slot and the counters commute). -/
def runJobsModel (total : ℕ) (ok : ℕ → Bool) (dur : ℕ → ℤ) : JobTally :=
  (List.range total).foldl (recordJob ok dur) ⟨List.replicate total 0, 0, 0⟩

/-! ### runTimedJobs (part_000) -/

/-- One completed operation in TimeBoxed mode: `sec` is
`int(time.Since(start).Seconds())`, the whole elapsed seconds at completion
(operations started before the deadline may complete after it, so `sec` may
reach or exceed the bucket count), and `ok` whether `fn` returned nil. -/
structure TimedOutcome where
  sec : ℕ
  ok : Bool

/-- Increment the counter list at index `i` (the `atomic.AddInt64(&c[sec],1)`). -/
def bumpAt (l : List ℕ) (i : ℕ) : List ℕ := l.set i (l.getD i 0 + 1)

/-- Aggregation state of `runTimedJobs`: per-bucket ok/err counters and the
run-total success/error counters. -/
structure TimedTallies where
  okCounts : List ℕ
  errCounts : List ℕ
  successes : ℕ
  errors : ℕ

/-- Recording of one completed operation in part_000 `runTimedJobs`: the bucket
counters are touched only under the guard `sec >= 0 && sec < buckets` (an
out-of-range completion is dropped from the series), while the run totals are
always incremented. -/
def recordTimed (buckets : ℕ) (st : TimedTallies) (op : TimedOutcome) : TimedTallies :=
  let st :=
    if op.sec < buckets then
      if op.ok then { st with okCounts := bumpAt st.okCounts op.sec }
      else { st with errCounts := bumpAt st.errCounts op.sec }
    else st
  if op.ok then { st with successes := st.successes + 1 }
  else { st with errors := st.errors + 1 }

/-- `buckets := int(math.Ceil(duration.Seconds())); if buckets < 1 { buckets = 1 }`. -/
def bucketCount (durationSec : ℚ) : ℕ :=
  let b : ℤ := ⌈durationSec⌉
  (if b < 1 then 1 else b).toNat

/-- From part_000 `runTimedJobs`: the per-second counters and run totals are the
fold of `recordTimed` over the multiset of completed operations (atomic
increments commute, so worker interleaving is irrelevant to the final counts). -/
def runTimedModel (durationSec : ℚ) (ops : List TimedOutcome) : TimedTallies :=
  let buckets := bucketCount durationSec
  ops.foldl (recordTimed buckets)
    ⟨List.replicate buckets 0, List.replicate buckets 0, 0, 0⟩

/-! ### sampleIndices / downsampling (report.go) -/

/-- `step := int(math.Ceil(float64(n) / float64(maxPoints)))` followed by the
`if step < 1 { step = 1 }` guard; for positive arguments the float ceiling of
the quotient is the integer ceiling division. -/
def sampleStep (n maxPoints : ℕ) : ℕ :=
  let step := (n + maxPoints - 1) / maxPoints
  if step < 1 then 1 else step

/-- The `for i := 0; i < n; i += step` collection loop of `sampleIndices`. -/
def sampleLoop (n step i : ℕ) : List ℕ :=
  if _h : i < n ∧ 0 < step then i :: sampleLoop n step (i + step) else []
termination_by n - i
decreasing_by omega

/-- From report.go `sampleIndices(n, maxPoints int) []int`. -/
def sampleIndices (n maxPoints : ℕ) : List ℕ :=
  if n = 0 then []
  else if maxPoints = 0 ∨ n ≤ maxPoints then List.range n
  else
    let idxs := sampleLoop n (sampleStep n maxPoints) 0
    if idxs.getLast? = some (n - 1) then idxs else idxs ++ [n - 1]

/-- From report.go `sampleFloats(src []float64, idxs []int) []float64`: nil on
empty inputs, else the in-range selected entries. -/
def sampleFloats (src : List ℚ) (idxs : List ℕ) : List ℚ :=
  if src.length = 0 ∨ idxs.length = 0 then []
  else idxs.filterMap (fun i => src[i]?)

/-- The per-series action of report.go `downsampleResults`: a series is left
unchanged when `maxPoints <= 0` or its length is 0 or at most `maxPoints`,
else it is sampled at `sampleIndices`. -/
def downsampleSeries (s : List ℚ) (maxPoints : ℕ) : List ℚ :=
  if maxPoints = 0 then s
  else if s.length = 0 ∨ s.length ≤ maxPoints then s
  else sampleFloats s (sampleIndices s.length maxPoints)

/-! ### Theorems: classifyError (C7) -/

/-- C7: `classifyError` maps every message, after lower-casing and trimming, to
exactly one code of the fixed taxonomy, matching substrings in the source's
priority order (`timeout`, `unknown_query`, `conn_reset`, `broken_pipe`, `eof`,
`canceled`, `not_found`, then `other`, with the empty string mapping to
`unknown`); in particular "context deadline exceeded" maps to `timeout`, "EOF"
to `eof`, "" to `unknown`, unmatched text to `other`, and a message containing
several matching substrings takes the earliest code in priority order. -/
theorem classifyError_spec :
    (∀ s : List Char, classifyError s ∈
      ["unknown", "timeout", "unknown_query", "conn_reset", "broken_pipe",
        "eof", "canceled", "not_found", "other"]) ∧
    classifyError "context deadline exceeded".data = "timeout" ∧
    classifyError "EOF".data = "eof" ∧
    classifyError "".data = "unknown" ∧
    classifyError "some peculiar crash".data = "other" ∧
    classifyError "request timeout with eof".data = "timeout" ∧
    classifyError "eof and then canceled".data = "eof" := by
  refine ⟨?_, by decide, by decide, by decide, by decide, by decide, by decide⟩
  intro s
  unfold classifyError
  dsimp only
  split_ifs <;> decide

/-! ### Theorems: lockedRand.Intn (C10) and blockPicker.pick (C8) -/

/-- C10: the shared generator's bounded draw is total: for every `n ≤ 0` it
returns 0 (unlike `math/rand.Intn`, which panics), and for positive `n` it
returns a value in `[0, n)`, so a degenerate selector span never crashes a
worker. -/
theorem lockedRandIntn_total (n : ℤ) (r : ℕ) :
    (n ≤ 0 → lockedRandIntn n r = 0) ∧
    (0 < n → 0 ≤ lockedRandIntn n r ∧ lockedRandIntn n r < n) := by
  unfold lockedRandIntn
  constructor
  · intro h
    rw [if_pos h]
  · intro h
    rw [if_neg (not_le.mpr h)]
    exact ⟨Int.emod_nonneg _ (ne_of_gt h), Int.emod_lt_of_pos _ h⟩

/-- Witness for C10 at `n = -3` (degenerate) and `n = 5` (positive). -/
theorem lockedRandIntn_total_witness :
    lockedRandIntn (-3) 7 = 0 ∧ 0 ≤ lockedRandIntn 5 7 ∧ lockedRandIntn 5 7 < 5 :=
  ⟨(lockedRandIntn_total (-3) 7).1 (by decide),
    (lockedRandIntn_total 5 7).2 (by decide)⟩

theorem pickWindowed_bounds (latest window : ℤ) (r : ℕ)
    (hl : 1 ≤ latest) (hw : 1 ≤ window) :
    max 1 (latest - window + 1) ≤ pickWindowed latest window r ∧
      pickWindowed latest window r ≤ latest := by
  unfold pickWindowed lockedRandIntn
  dsimp only
  by_cases hc : latest - window + 1 < 1
  · simp only [if_pos hc]
    by_cases hs : latest - 1 + 1 ≤ 1
    · simp only [if_pos hs]
      omega
    · simp only [if_neg hs]
      have h0 : ¬ (latest - 1 + 1 ≤ 0) := by omega
      simp only [if_neg h0]
      have e1 : 0 ≤ (r : ℤ) % (latest - 1 + 1) := Int.emod_nonneg _ (by omega)
      have e2 : (r : ℤ) % (latest - 1 + 1) < latest - 1 + 1 :=
        Int.emod_lt_of_pos _ (by omega)
      omega
  · simp only [if_neg hc]
    by_cases hs : latest - (latest - window + 1) + 1 ≤ 1
    · simp only [if_pos hs]
      omega
    · simp only [if_neg hs]
      have h0 : ¬ (latest - (latest - window + 1) + 1 ≤ 0) := by omega
      simp only [if_neg h0]
      have e1 : 0 ≤ (r : ℤ) % (latest - (latest - window + 1) + 1) :=
        Int.emod_nonneg _ (by omega)
      have e2 : (r : ℤ) % (latest - (latest - window + 1) + 1) <
          latest - (latest - window + 1) + 1 :=
        Int.emod_lt_of_pos _ (by omega)
      omega

/-- C8: with cached bound `latest ≥ 1` and window `≥ 1`, every pick in windowed
mode lies in `[max(1, latest-window+1), latest]`; in particular with bound 1000
and window 200, every pick lies in `[801, 1000]`. -/
theorem pick_within_window (latest window : ℤ) (r : ℕ)
    (hl : 1 ≤ latest) (hw : 1 ≤ window) :
    (max 1 (latest - window + 1) ≤ pickWindowed latest window r ∧
      pickWindowed latest window r ≤ latest) ∧
    (∀ r' : ℕ, 801 ≤ pickWindowed 1000 200 r' ∧ pickWindowed 1000 200 r' ≤ 1000) := by
  refine ⟨pickWindowed_bounds latest window r hl hw, fun r' => ?_⟩
  obtain ⟨h1, h2⟩ := pickWindowed_bounds 1000 200 r' (by norm_num) (by norm_num)
  constructor
  · omega
  · exact h2

/-- Witness for C8 at bound 1000, window 200, oracle 12345. -/
theorem pick_within_window_witness :
    (max 1 ((1000 : ℤ) - 200 + 1) ≤ pickWindowed 1000 200 12345 ∧
      pickWindowed 1000 200 12345 ≤ 1000) ∧
    (∀ r' : ℕ, 801 ≤ pickWindowed 1000 200 r' ∧ pickWindowed 1000 200 r' ≤ 1000) :=
  pick_within_window 1000 200 12345 (by norm_num) (by norm_num)

/-! ### Theorems: runJobs (C9) -/

theorem recordJob_durations_length (ok : ℕ → Bool) (dur : ℕ → ℤ)
    (st : JobTally) (i : ℕ) :
    (recordJob ok dur st i).durations.length = st.durations.length := by
  unfold recordJob
  split_ifs <;> simp

theorem foldl_recordJob_length (ok : ℕ → Bool) (dur : ℕ → ℤ) :
    ∀ (l : List ℕ) (st : JobTally),
      ((l.foldl (recordJob ok dur) st).durations).length = st.durations.length := by
  intro l
  induction l with
  | nil => intro st; rfl
  | cons a t ih =>
    intro st
    rw [List.foldl_cons, ih, recordJob_durations_length]

theorem foldl_recordJob_counts (ok : ℕ → Bool) (dur : ℕ → ℤ) :
    ∀ (l : List ℕ) (st : JobTally),
      (l.foldl (recordJob ok dur) st).successes + (l.foldl (recordJob ok dur) st).errors
        = st.successes + st.errors + l.length := by
  intro l
  induction l with
  | nil => intro st; simp
  | cons a t ih =>
    intro st
    rw [List.foldl_cons, ih]
    unfold recordJob
    split_ifs <;> simp <;> omega

theorem foldl_recordJob_getD_of_notmem (ok : ℕ → Bool) (dur : ℕ → ℤ) :
    ∀ (l : List ℕ) (st : JobTally) (i : ℕ), i ∉ l →
      (l.foldl (recordJob ok dur) st).durations.getD i 0 = st.durations.getD i 0 := by
  intro l
  induction l with
  | nil => intro st i _; rfl
  | cons a t ih =>
    intro st i hi
    have hia : i ≠ a := fun h => hi (h ▸ List.mem_cons_self a t)
    have hit : i ∉ t := fun h => hi (List.mem_cons_of_mem a h)
    rw [List.foldl_cons, ih _ _ hit]
    unfold recordJob
    split_ifs <;>
      simp [List.getD_eq_getElem?_getD, List.getElem?_set_ne (Ne.symm hia)]

theorem foldl_recordJob_getD_of_mem (ok : ℕ → Bool) (dur : ℕ → ℤ) :
    ∀ (l : List ℕ) (st : JobTally) (i : ℕ), l.Nodup → i ∈ l →
      i < st.durations.length →
      (l.foldl (recordJob ok dur) st).durations.getD i 0 =
        if ok i then dur i else -1 := by
  intro l
  induction l with
  | nil => intro st i _ hi _; simp at hi
  | cons a t ih =>
    intro st i hnd hi hlen
    rw [List.foldl_cons]
    rcases List.mem_cons.mp hi with rfl | hit
    · have hnotin : i ∉ t := (List.nodup_cons.mp hnd).1
      rw [foldl_recordJob_getD_of_notmem _ _ _ _ _ hnotin]
      unfold recordJob
      split_ifs with hok <;>
        simp [hok, List.getD_eq_getElem?_getD, List.getElem?_set_self, hlen]
    · exact ih _ _ (List.nodup_cons.mp hnd).2 hit
        (by rw [recordJob_durations_length]; exact hlen)

/-- C9: the `runJobs` worker count is `min(requestedConcurrency, itemCount)`
with a minimum of 1; every work item is executed exactly once, each index's
slot holding its own outcome; exactly `itemCount` outcomes are recorded, with
successes plus errors equal to `itemCount`; for `itemCount = 37` and
`concurrency = 50` the worker count is 37. -/
theorem runJobs_spec (total : ℕ) (conc : ℤ) (ok : ℕ → Bool) (dur : ℕ → ℤ) :
    effectiveConc conc total = max 1 (min conc total) ∧
    (runJobsModel total ok dur).durations.length = total ∧
    (runJobsModel total ok dur).successes + (runJobsModel total ok dur).errors = total ∧
    (∀ i, i < total → (runJobsModel total ok dur).durations.getD i 0 =
      if ok i then dur i else -1) ∧
    effectiveConc 50 37 = 37 := by
  refine ⟨?_, ?_, ?_, ?_, ?_⟩
  · unfold effectiveConc
    dsimp only
    split_ifs <;> omega
  · unfold runJobsModel
    rw [foldl_recordJob_length]
    simp
  · unfold runJobsModel
    rw [foldl_recordJob_counts]
    simp
  · intro i hi
    unfold runJobsModel
    exact foldl_recordJob_getD_of_mem ok dur (List.range total) _ i
      (List.nodup_range total) (List.mem_range.mpr hi) (by simpa using hi)
  · unfold effectiveConc
    norm_num

/-- Witness for C9: the 37-item, concurrency-50 instance; index 5's slot holds
its own outcome. -/
theorem runJobs_spec_witness :
    (runJobsModel 37 (fun _ => true) (fun i => (i : ℤ))).durations.getD 5 0 =
      (if (fun _ : ℕ => true) 5 then ((5 : ℕ) : ℤ) else -1) ∧
    effectiveConc 50 37 = 37 :=
  ⟨(runJobs_spec 37 50 (fun _ => true) (fun i => (i : ℤ))).2.2.2.1 5 (by norm_num),
    (runJobs_spec 37 50 (fun _ => true) (fun i => (i : ℤ))).2.2.2.2⟩

/-! ### Theorems: runTimedJobs per-second buckets (C1) -/

theorem sum_bumpAt : ∀ (l : List ℕ) (i : ℕ), i < l.length →
    (bumpAt l i).sum = l.sum + 1 := by
  intro l
  induction l with
  | nil => intro i h; simp at h
  | cons a t ih =>
    intro i h
    cases i with
    | zero =>
      simp only [bumpAt, List.set_cons_zero, List.getD_cons_zero, List.sum_cons]
      omega
    | succ n =>
      have hn := ih n (by simpa using h)
      simp only [bumpAt, List.set_cons_succ, List.getD_cons_succ, List.sum_cons] at hn ⊢
      omega

theorem sum_bumpAt_le (l : List ℕ) (i : ℕ) : (bumpAt l i).sum ≤ l.sum + 1 := by
  by_cases h : i < l.length
  · rw [sum_bumpAt l i h]
  · unfold bumpAt
    rw [List.set_eq_of_length_le (by omega)]
    omega

theorem recordTimed_lengths (b : ℕ) (st : TimedTallies) (op : TimedOutcome) :
    (recordTimed b st op).okCounts.length = st.okCounts.length ∧
    (recordTimed b st op).errCounts.length = st.errCounts.length := by
  unfold recordTimed bumpAt
  dsimp only
  split_ifs <;> simp

theorem recordTimed_totals (b : ℕ) (st : TimedTallies) (op : TimedOutcome) :
    (recordTimed b st op).successes = st.successes + (if op.ok then 1 else 0) ∧
    (recordTimed b st op).errors = st.errors + (if op.ok then 0 else 1) := by
  unfold recordTimed
  dsimp only
  split_ifs <;> simp

theorem recordTimed_okSum_le (b : ℕ) (st : TimedTallies) (op : TimedOutcome) :
    (recordTimed b st op).okCounts.sum ≤ st.okCounts.sum + (if op.ok then 1 else 0) := by
  unfold recordTimed
  dsimp only
  split_ifs <;> simp [sum_bumpAt_le]

theorem recordTimed_okSum_eq (b : ℕ) (st : TimedTallies) (op : TimedOutcome)
    (hlen : st.okCounts.length = b) (hsec : op.sec < b) :
    (recordTimed b st op).okCounts.sum = st.okCounts.sum + (if op.ok then 1 else 0) := by
  unfold recordTimed
  dsimp only
  cases hok : op.ok <;>
    simp [hok, hsec, sum_bumpAt st.okCounts op.sec (by omega)]

theorem recordTimed_errSum_eq (b : ℕ) (st : TimedTallies) (op : TimedOutcome)
    (hlen : st.errCounts.length = b) (hsec : op.sec < b) :
    (recordTimed b st op).errCounts.sum = st.errCounts.sum + (if op.ok then 0 else 1) := by
  unfold recordTimed
  dsimp only
  cases hok : op.ok <;>
    simp [hok, hsec, sum_bumpAt st.errCounts op.sec (by omega)]

theorem foldl_recordTimed_le (b : ℕ) :
    ∀ (ops : List TimedOutcome) (st : TimedTallies),
      (ops.foldl (recordTimed b) st).okCounts.sum + st.successes ≤
        st.okCounts.sum + (ops.foldl (recordTimed b) st).successes := by
  intro ops
  induction ops with
  | nil => intro st; simp
  | cons op t ih =>
    intro st
    rw [List.foldl_cons]
    have h1 := ih (recordTimed b st op)
    have h2 := recordTimed_okSum_le b st op
    have h3 := (recordTimed_totals b st op).1
    omega

theorem foldl_recordTimed_eq (b : ℕ) :
    ∀ (ops : List TimedOutcome) (st : TimedTallies),
      st.okCounts.length = b → st.errCounts.length = b →
      (∀ op ∈ ops, op.sec < b) →
      (ops.foldl (recordTimed b) st).okCounts.sum + st.successes =
        st.okCounts.sum + (ops.foldl (recordTimed b) st).successes ∧
      (ops.foldl (recordTimed b) st).errCounts.sum + st.errors =
        st.errCounts.sum + (ops.foldl (recordTimed b) st).errors := by
  intro ops
  induction ops with
  | nil => intro st _ _ _; simp
  | cons op t ih =>
    intro st hok herr hall
    rw [List.foldl_cons]
    have hsec : op.sec < b := hall op (List.mem_cons_self op t)
    have h1 := ih (recordTimed b st op)
      ((recordTimed_lengths b st op).1.trans hok)
      ((recordTimed_lengths b st op).2.trans herr)
      (fun o ho => hall o (List.mem_cons_of_mem op ho))
    have h2 := recordTimed_okSum_eq b st op hok hsec
    have h3 := recordTimed_errSum_eq b st op herr hsec
    have h4 := recordTimed_totals b st op
    omega

theorem foldl_recordTimed_lengths (b : ℕ) :
    ∀ (ops : List TimedOutcome) (st : TimedTallies),
      (ops.foldl (recordTimed b) st).okCounts.length = st.okCounts.length ∧
      (ops.foldl (recordTimed b) st).errCounts.length = st.errCounts.length := by
  intro ops
  induction ops with
  | nil => intro st; exact ⟨rfl, rfl⟩
  | cons op t ih =>
    intro st
    rw [List.foldl_cons]
    exact ⟨(ih _).1.trans (recordTimed_lengths b st op).1,
      (ih _).2.trans (recordTimed_lengths b st op).2⟩

/-- C1 counterexample: in a 3-second TimeBoxed run, an operation that completes
at elapsed second 3 (a tail operation finishing after the soft deadline) is
counted in the total success count but recorded in no bucket — the code drops
out-of-range seconds instead of clamping them — so the per-bucket success sums
do not equal the total success count. -/
theorem timed_bucket_sums_cex :
    ¬ ((runTimedModel 3 [⟨3, true⟩]).okCounts.sum =
        (runTimedModel 3 [⟨3, true⟩]).successes) := by
  have hb : bucketCount 3 = 3 := by
    have h3 : (⌈(3 : ℚ)⌉ : ℤ) = 3 := by norm_num
    unfold bucketCount
    dsimp only
    rw [h3]
    decide
  simp only [runTimedModel, hb]
  decide

/-- C1 amended: the per-second series has `ceil(durationSeconds)` buckets
(minimum 1); a completed operation's outcome is recorded into bucket
`floor(elapsed_seconds)` only when that index is below the bucket count
(later completions are dropped from the series while still counted in the run
totals), so the sum of per-bucket success counts is at most the total success
count, with equality — and likewise for error counts — whenever every
operation completes within the time box. -/
theorem timed_bucket_sums (durationSec : ℚ) (ops : List TimedOutcome) :
    (runTimedModel durationSec ops).okCounts.length = bucketCount durationSec ∧
    (runTimedModel durationSec ops).okCounts.sum ≤
      (runTimedModel durationSec ops).successes ∧
    ((∀ op ∈ ops, op.sec < bucketCount durationSec) →
      (runTimedModel durationSec ops).okCounts.sum =
        (runTimedModel durationSec ops).successes ∧
      (runTimedModel durationSec ops).errCounts.sum =
        (runTimedModel durationSec ops).errors) := by
  unfold runTimedModel
  dsimp only
  refine ⟨?_, ?_, ?_⟩
  · rw [(foldl_recordTimed_lengths (bucketCount durationSec) ops _).1]
    simp
  · have h := foldl_recordTimed_le (bucketCount durationSec) ops
      ⟨List.replicate (bucketCount durationSec) 0,
        List.replicate (bucketCount durationSec) 0, 0, 0⟩
    simpa using h
  · intro hall
    have h := foldl_recordTimed_eq (bucketCount durationSec) ops
      ⟨List.replicate (bucketCount durationSec) 0,
        List.replicate (bucketCount durationSec) 0, 0, 0⟩
      (by simp) (by simp) hall
    simpa using h

/-- Witness for C1 (amended): a 3-second run whose operations all complete
within the box has bucket sums equal to the run totals. -/
theorem timed_bucket_sums_witness :
    (runTimedModel 3 [⟨0, true⟩, ⟨2, false⟩]).okCounts.sum =
      (runTimedModel 3 [⟨0, true⟩, ⟨2, false⟩]).successes ∧
    (runTimedModel 3 [⟨0, true⟩, ⟨2, false⟩]).errCounts.sum =
      (runTimedModel 3 [⟨0, true⟩, ⟨2, false⟩]).errors := by
  refine (timed_bucket_sums 3 [⟨0, true⟩, ⟨2, false⟩]).2.2 ?_
  have hb : bucketCount 3 = 3 := by
    have h3 : (⌈(3 : ℚ)⌉ : ℤ) = 3 := by norm_num
    unfold bucketCount
    dsimp only
    rw [h3]
    decide
  intro op hop
  rw [hb]
  rcases List.mem_cons.mp hop with rfl | hop2
  · norm_num
  · rcases List.mem_cons.mp hop2 with rfl | hop3
    · norm_num
    · simp at hop3

/-! ### Theorems: sampleIndices / downsampling (C6) -/

theorem sampleLoop_mem (n step : ℕ) (hs : 0 < step) :
    ∀ i x, x ∈ sampleLoop n step i ↔ ∃ j, x = i + j * step ∧ x < n := by
  have H : ∀ (m i : ℕ), n - i ≤ m → ∀ x,
      (x ∈ sampleLoop n step i ↔ ∃ j, x = i + j * step ∧ x < n) := by
    intro m
    induction m with
    | zero =>
      intro i hm x
      rw [sampleLoop, dif_neg (by omega)]
      constructor
      · intro h
        cases h
      · rintro ⟨j, rfl, hx⟩
        omega
    | succ m ih =>
      intro i hm x
      rw [sampleLoop]
      by_cases hg : i < n
      · rw [dif_pos ⟨hg, hs⟩, List.mem_cons, ih (i + step) (by omega)]
        constructor
        · rintro (rfl | ⟨j, rfl, hx⟩)
          · exact ⟨0, by simp, hg⟩
          · refine ⟨j + 1, ?_, hx⟩
            rw [Nat.succ_mul]
            omega
        · rintro ⟨j, rfl, hx⟩
          cases j with
          | zero => left; simp
          | succ j2 =>
            right
            refine ⟨j2, ?_, hx⟩
            rw [Nat.succ_mul] at *
            omega
      · rw [dif_neg (by omega)]
        constructor
        · intro h
          cases h
        · rintro ⟨j, rfl, hx⟩
          omega
  intro i x
  exact H (n - i) i le_rfl x

theorem sampleLoop_head (n step i : ℕ) (hg : i < n) (hs : 0 < step) :
    (sampleLoop n step i).head? = some i := by
  rw [sampleLoop, dif_pos ⟨hg, hs⟩]
  rfl

theorem sampleLoop_chain (n step : ℕ) (hs : 0 < step) :
    ∀ i, List.Chain' (· < ·) (sampleLoop n step i) := by
  have H : ∀ (m i : ℕ), n - i ≤ m → List.Chain' (· < ·) (sampleLoop n step i) := by
    intro m
    induction m with
    | zero =>
      intro i hm
      rw [sampleLoop, dif_neg (by omega)]
      exact List.chain'_nil
    | succ m ih =>
      intro i hm
      rw [sampleLoop]
      by_cases hg : i < n
      · rw [dif_pos ⟨hg, hs⟩, List.chain'_cons']
        refine ⟨?_, ih (i + step) (by omega)⟩
        intro b hb
        by_cases hg2 : i + step < n
        · rw [sampleLoop_head n step (i + step) hg2 hs] at hb
          simp at hb
          omega
        · rw [sampleLoop, dif_neg (by omega)] at hb
          simp at hb
      · rw [dif_neg (by omega)]
        exact List.chain'_nil
  intro i
  exact H (n - i) i le_rfl

theorem sampleLoop_length_le (n step : ℕ) (hs : 0 < step) :
    ∀ (k i : ℕ), n ≤ i + k * step → (sampleLoop n step i).length ≤ k := by
  intro k
  induction k with
  | zero =>
    intro i h
    rw [sampleLoop, dif_neg (by omega)]
    simp
  | succ k ih =>
    intro i h
    rw [sampleLoop]
    by_cases hg : i < n
    · rw [dif_pos ⟨hg, hs⟩]
      simp only [List.length_cons]
      have hk := ih (i + step) (by rw [Nat.succ_mul] at h; omega)
      omega
    · rw [dif_neg (by omega)]
      simp

theorem sampleStep_pos (n m : ℕ) : 0 < sampleStep n m := by
  unfold sampleStep
  dsimp only
  split_ifs <;> omega

theorem le_mul_sampleStep (n m : ℕ) (hm : 0 < m) : n ≤ m * sampleStep n m := by
  unfold sampleStep
  dsimp only
  have hdm := Nat.div_add_mod (n + m - 1) m
  have hmod : (n + m - 1) % m < m := Nat.mod_lt _ hm
  generalize hq : (n + m - 1) / m = q at hdm ⊢
  generalize hr : (n + m - 1) % m = r at hdm hmod
  split_ifs with h
  · have hq0 : q = 0 := by omega
    subst hq0
    simp at hdm
    omega
  · generalize ht : m * q = t at hdm ⊢
    omega

theorem sampleIndices_eq (n m : ℕ) (hm : 0 < m) (hnm : m < n) :
    sampleIndices n m =
      if (sampleLoop n (sampleStep n m) 0).getLast? = some (n - 1)
      then sampleLoop n (sampleStep n m) 0
      else sampleLoop n (sampleStep n m) 0 ++ [n - 1] := by
  unfold sampleIndices
  rw [if_neg (by omega), if_neg (by push_neg; omega)]

theorem sampleLoop_zero_head (n m : ℕ) (hn : 0 < n) :
    (sampleLoop n (sampleStep n m) 0).head? = some 0 :=
  sampleLoop_head n (sampleStep n m) 0 hn (sampleStep_pos n m)

theorem sampleIndices_head (n m : ℕ) (hm : 0 < m) (hnm : m < n) :
    (sampleIndices n m).head? = some 0 := by
  rw [sampleIndices_eq n m hm hnm]
  have hh := sampleLoop_zero_head n m (by omega)
  split_ifs with hl
  · exact hh
  · cases hc : sampleLoop n (sampleStep n m) 0 with
    | nil => rw [hc] at hh; simp at hh
    | cons a t =>
      rw [hc] at hh
      simp at hh
      simp [hh]

theorem sampleIndices_last (n m : ℕ) (hm : 0 < m) (hnm : m < n) :
    (sampleIndices n m).getLast? = some (n - 1) := by
  rw [sampleIndices_eq n m hm hnm]
  split_ifs with hl
  · exact hl
  · exact List.getLast?_concat _

theorem sampleIndices_chain (n m : ℕ) (hm : 0 < m) (hnm : m < n) :
    List.Chain' (· < ·) (sampleIndices n m) := by
  rw [sampleIndices_eq n m hm hnm]
  have hch := sampleLoop_chain n (sampleStep n m) (sampleStep_pos n m) 0
  split_ifs with hl
  · exact hch
  · rw [List.chain'_append]
    refine ⟨hch, List.chain'_singleton _, ?_⟩
    intro x hx y hy
    simp only [List.head?_cons, Option.mem_def, Option.some.injEq] at hy
    subst hy
    have hxmem : x ∈ sampleLoop n (sampleStep n m) 0 :=
      List.mem_of_mem_getLast? hx
    have hxlt : x < n := by
      have := (sampleLoop_mem n (sampleStep n m) (sampleStep_pos n m) 0 x).mp hxmem
      omega
    have hxne : x ≠ n - 1 := by
      intro heq
      apply hl
      rw [Option.mem_def] at hx
      rw [hx, heq]
    omega

theorem sampleIndices_length (n m : ℕ) (hm : 0 < m) (hnm : m < n) :
    (sampleIndices n m).length ≤ m + 1 := by
  have hlen : (sampleLoop n (sampleStep n m) 0).length ≤ m :=
    sampleLoop_length_le n (sampleStep n m) (sampleStep_pos n m) m 0
      (by have := le_mul_sampleStep n m hm; omega)
  rw [sampleIndices_eq n m hm hnm]
  split_ifs with hl
  · omega
  · rw [List.length_append]
    simp
    omega

theorem sampleIndices_mem (n m : ℕ) (hm : 0 < m) (hnm : m < n) (x : ℕ) :
    x ∈ sampleIndices n m ↔ ((∃ j, x = j * sampleStep n m) ∧ x < n) ∨ x = n - 1 := by
  have hmem := sampleLoop_mem n (sampleStep n m) (sampleStep_pos n m) 0
  rw [sampleIndices_eq n m hm hnm]
  split_ifs with hl
  · rw [hmem x]
    constructor
    · rintro ⟨j, rfl, hx⟩
      exact Or.inl ⟨⟨j, by omega⟩, hx⟩
    · rintro (⟨⟨j, rfl⟩, hx⟩ | rfl)
      · exact ⟨j, by omega, hx⟩
      · have : n - 1 ∈ sampleLoop n (sampleStep n m) 0 :=
          List.mem_of_mem_getLast? hl
        rw [hmem (n - 1)] at this
        obtain ⟨j, hj, hjlt⟩ := this
        exact ⟨j, hj, hjlt⟩
  · rw [List.mem_append, hmem x]
    constructor
    · rintro (⟨j, rfl, hx⟩ | hx)
      · exact Or.inl ⟨⟨j, by omega⟩, hx⟩
      · simp at hx
        exact Or.inr hx
    · rintro (⟨⟨j, rfl⟩, hx⟩ | rfl)
      · exact Or.inl ⟨j, by omega, hx⟩
      · simp

theorem sampleIndices_noop (n m : ℕ) (h : m = 0 ∨ n ≤ m) :
    sampleIndices n m = List.range n := by
  unfold sampleIndices
  by_cases hn : n = 0
  · rw [if_pos hn, hn]
    simp
  · rw [if_neg hn, if_pos h]

theorem downsampleSeries_noop (s : List ℚ) (mp : ℕ) (h : mp = 0 ∨ s.length ≤ mp) :
    downsampleSeries s mp = s := by
  unfold downsampleSeries
  rcases h with h | h
  · rw [if_pos h]
  · by_cases h0 : mp = 0
    · rw [if_pos h0]
    · rw [if_neg h0, if_pos (Or.inr h)]

/-- C6: for `0 < M < N`, the downsampling index list keeps exactly the
multiples of `step = ceil(N/M)` below `N` together with the forced final index
`N-1`; it starts at 0, ends at `N-1`, is strictly increasing, and has length at
most `M+1`; and for `N ≤ M` or `M = 0` the series is returned unchanged. -/
theorem sampleIndices_spec (n m : ℕ) (hm : 0 < m) (hnm : m < n) :
    (sampleIndices n m).head? = some 0 ∧
    (sampleIndices n m).getLast? = some (n - 1) ∧
    List.Chain' (· < ·) (sampleIndices n m) ∧
    (sampleIndices n m).length ≤ m + 1 ∧
    (∀ x, x ∈ sampleIndices n m ↔
      ((∃ j, x = j * sampleStep n m) ∧ x < n) ∨ x = n - 1) ∧
    (∀ (s : List ℚ) (mp : ℕ), mp = 0 ∨ s.length ≤ mp → downsampleSeries s mp = s) ∧
    (∀ (n2 m2 : ℕ), m2 = 0 ∨ n2 ≤ m2 → sampleIndices n2 m2 = List.range n2) :=
  ⟨sampleIndices_head n m hm hnm, sampleIndices_last n m hm hnm,
    sampleIndices_chain n m hm hnm, sampleIndices_length n m hm hnm,
    sampleIndices_mem n m hm hnm,
    fun s mp h => downsampleSeries_noop s mp h,
    fun n2 m2 h => sampleIndices_noop n2 m2 h⟩

/-- Witness for C6 at `N = 5`, `M = 2`. -/
theorem sampleIndices_spec_witness :
    (sampleIndices 5 2).head? = some 0 ∧
    (sampleIndices 5 2).getLast? = some (5 - 1) ∧
    List.Chain' (· < ·) (sampleIndices 5 2) ∧
    (sampleIndices 5 2).length ≤ 2 + 1 ∧
    (∀ x, x ∈ sampleIndices 5 2 ↔
      ((∃ j, x = j * sampleStep 5 2) ∧ x < 5) ∨ x = 5 - 1) ∧
    (∀ (s : List ℚ) (mp : ℕ), mp = 0 ∨ s.length ≤ mp → downsampleSeries s mp = s) ∧
    (∀ (n2 m2 : ℕ), m2 = 0 ∨ n2 ≤ m2 → sampleIndices n2 m2 = List.range n2) :=
  sampleIndices_spec 5 2 (by decide) (by decide)

end LiteShooter
